import Mathlib

/-!
Shallow embedding of the Document & Chunk Retrieval Engine of the `myrag`
repository (TypeScript), together with proofs of the frozen claims about it.

Conventions of the embedding:
* JavaScript strings are modeled as `List Char`; `String.prototype.slice`
  with in-range non-negative arguments is `jsSlice`.
* JavaScript numbers that hold vector components or similarities are modeled
  as `ℚ`.  `Math.sqrt` is modeled by an uninterpreted parameter
  `sqrtQ : ℚ → ℚ`; no claim depends on the numeric value of a square root.
  A JavaScript division whose denominator is `0` produces no finite number
  (`NaN` or `±Infinity`), modeled by `Option ℚ` with `none` for the
  non-finite outcomes.
* Fresh document ids (`crypto.randomUUID()`) are modeled by a counter
  `nextId` carried in the store state; freshness is the invariant
  `StoreWF`.
* The external embedding service (`EmbeddingService.embedText`) is an
  uninterpreted parameter `embed : List Char → List ℚ`.
* `Array.prototype.sort` (guaranteed stable, used with a consistent
  comparator) is modeled by `List.insertionSort`, a stable sort.
* The stateful methods of `InMemoryDocumentStore` become explicit
  state-passing functions on `StoreState`.
-/

/-- `String.prototype.slice(start, end)` for `0 ≤ start` and `0 ≤ end`,
as used throughout the source (all call sites pass in-range non-negative
offsets). -/
def jsSlice (l : List Char) (s e : ℕ) : List Char :=
  (l.take e).drop s

/-- `String.prototype.replace(pat, rep)` with a string pattern: replace the
first occurrence of `pat` (scanning left to right) by `rep`; return the
string unchanged when `pat` does not occur.  The special `$`-escapes that
JavaScript interprets inside the replacement are not modeled; no claim
mentions them. -/
def replaceFirst (s pat rep : List Char) : List Char :=
  if pat <+: s then rep ++ s.drop pat.length
  else
    match s with
    | [] => []
    | c :: s' => c :: replaceFirst s' pat rep

/-- Reconstruction range of a chunk (`range: {start, end}` in `documentStore.ts`). -/
structure ChunkRange where
  start : ℕ
  stop : ℕ
  deriving Repr, DecidableEq

/-- The `Chunk` interface of `documentStore.ts`. -/
structure Chunk where
  content : List Char
  documentId : ℕ
  chunkIndex : ℕ
  range : ChunkRange
  deriving Repr, DecidableEq

/-- The `Document` interface of `documentStore.ts`.  `metadata` is an opaque
token standing for the string-keyed map (no claim inspects it). -/
structure Document where
  id : ℕ
  content : List Char
  numberOfChunks : ℕ
  metadata : ℕ
  deriving Repr, DecidableEq

/-- One element of `InMemoryDocumentStore.chunks`: a chunk paired with its
embedding vector. -/
structure IndexEntry where
  chunk : Chunk
  embedding : List ℚ
  deriving Repr, DecidableEq

/-- The mutable state of an `InMemoryDocumentStore`:  the `documents` map
(insertion ordered, keyed by `Document.id`) and the global chunk/embedding
index, plus the fresh-id counter modeling `crypto.randomUUID()`. -/
structure StoreState where
  nextId : ℕ
  documents : List Document
  chunks : List IndexEntry
  deriving Repr, DecidableEq

/-- A store state as produced by the `InMemoryDocumentStore` constructor. -/
def emptyStore : StoreState := ⟨0, [], []⟩

/-- Id freshness invariant of the model: every stored document id (and every
indexed chunk's owner id) is below the fresh-id counter.  This is the
model's rendering of the uniqueness of `crypto.randomUUID()`. -/
def StoreWF (st : StoreState) : Prop :=
  (∀ d ∈ st.documents, d.id < st.nextId) ∧
  (∀ en ∈ st.chunks, en.chunk.documentId < st.nextId)

/-- The loop body of `TextChunker.chunk`, with explicit fuel.  `none` means
the fuel ran out, i.e. the `while` loop performed more iterations than the
fuel allows (for valid configurations `text.length + 1` iterations always
suffice, see `chunkGo_isSome`).

```
while (start < text.length) {
  const end = Math.min(start + this.chunkSize, text.length);
  chunks.push(text.slice(start, end));
  ends.push(end);
  if (end >= text.length) break;
  start = end - this.chunkOverlap;
}
```
-/
def chunkGo (size overlap : ℕ) (text : List Char) :
    ℕ → ℕ → Option (List (List Char) × List ℕ)
  | 0, _ => none
  | fuel + 1, start =>
    if start < text.length then
      let e := min (start + size) text.length
      let c := jsSlice text start e
      if text.length ≤ e then
        some ([c], [e])
      else
        match chunkGo size overlap text fuel (e - overlap) with
        | none => none
        | some (cs, es) => some (c :: cs, e :: es)
    else
      some ([], [])

/-- `TextChunker.chunk(text)` for a chunker configured with `size` and
`overlap`: the windows together with the list of recorded `ends`.
The default configuration of the `TextChunker` constructor is
`size = 500`, `overlap = 100`.  For every configuration with
`overlap < size` the fuel `text.length + 1` is enough (`chunkGo_isSome`);
the default `([], [])` is never reached for such configurations. -/
def chunk (size overlap : ℕ) (text : List Char) : List (List Char) × List ℕ :=
  (chunkGo size overlap text (text.length + 1) 0).getD ([], [])

/-- The chunk-building loop of `addDocument`: chunk `i` has
`range.start = i === 0 ? 0 : ends[i-1]` and `range.end = ends[i]`;
`prev` carries `ends[i-1]` (initially `0`). -/
def mkChunks (docId : ℕ) : ℕ → ℕ → List (List Char) → List ℕ → List Chunk
  | _, _, [], _ => []
  | _, _, _ :: _, [] => []
  | i, prev, w :: ws, e :: es =>
    ⟨w, docId, i, ⟨prev, e⟩⟩ :: mkChunks docId (i + 1) e ws es

/-- The chunks that `addDocument` creates for a document `docId` with the
given content, for a store whose chunker is configured with `(size, overlap)`. -/
def mkDocChunks (size overlap docId : ℕ) (text : List Char) : List Chunk :=
  mkChunks docId 0 0 (chunk size overlap text).1 (chunk size overlap text).2

/-- `InMemoryDocumentStore.addDocument` for a store whose chunker is
configured with `(size, overlap)`; the repository always constructs the
chunker with the defaults `(500, 100)` (see `addDocument`).  `embed` is the
external embedding service. -/
def addDocumentWith (size overlap : ℕ) (embed : List Char → List ℚ)
    (st : StoreState) (content : List Char) (metadata : ℕ) :
    Document × StoreState :=
  let id := st.nextId
  let docChunks := mkDocChunks size overlap id content
  let document : Document := ⟨id, content, docChunks.length, metadata⟩
  ⟨document,
   ⟨id + 1,
    st.documents ++ [document],
    st.chunks ++ docChunks.map (fun c => ⟨c, embed c.content⟩)⟩⟩

/-- `InMemoryDocumentStore.addDocument`: the store's `TextChunker` is
constructed with the default `chunkSize = 500`, `chunkOverlap = 100`. -/
def addDocument (embed : List Char → List ℚ) (st : StoreState)
    (content : List Char) (metadata : ℕ) : Document × StoreState :=
  addDocumentWith 500 100 embed st content metadata

/-- `InMemoryDocumentStore.getDocument`. -/
def getDocument (st : StoreState) (id : ℕ) : Option Document :=
  st.documents.find? (fun d => d.id = id)

/-- `InMemoryDocumentStore.deleteDocument`: returns whether a document was
deleted, and the new state (chunks are filtered only when a document was
actually removed, exactly as in the source). -/
def deleteDocument (st : StoreState) (id : ℕ) : Bool × StoreState :=
  if st.documents.any (fun d => d.id = id) then
    ⟨true,
     ⟨st.nextId,
      st.documents.filter (fun d => ¬ d.id = id),
      st.chunks.filter (fun en => ¬ en.chunk.documentId = id)⟩⟩
  else
    ⟨false, st⟩

/-- `this.chunks.find(c => c.chunk.documentId === documentId && c.chunk.chunkIndex === chunkIndex)`. -/
def findChunkEntry (st : StoreState) (docId idx : ℕ) : Option IndexEntry :=
  st.chunks.find? (fun en => en.chunk.documentId = docId ∧ en.chunk.chunkIndex = idx)

/-- `InMemoryDocumentStore.getChunkByIndex`. -/
def getChunkByIndex (st : StoreState) (docId idx : ℕ) : Option Chunk :=
  (findChunkEntry st docId idx).map (fun en => en.chunk)

/-- `InMemoryDocumentStore.editChunk`.  The TypeScript method returns
`Document | string`; the string failure messages are modeled by
`Except String`.  On success the new document and the updated state are
returned (`addDocument` on the spliced content, then `deleteDocument` of
the original id). -/
def editChunk (embed : List Char → List ℚ) (st : StoreState)
    (docId idxStart idxEnd : ℕ) (oldContent newContent : List Char) :
    Except String (Document × StoreState) :=
  match getDocument st docId with
  | none => .error "Document not found"
  | some document =>
    match findChunkEntry st docId idxStart with
    | none => .error "Chunk start not found"
    | some chunkStart =>
      match findChunkEntry st docId idxEnd with
      | none => .error "Chunk end not found"
      | some chunkEnd =>
        let text := jsSlice document.content chunkStart.chunk.range.start
          chunkEnd.chunk.range.stop
        let replacedText := replaceFirst text oldContent newContent
        if replacedText = text then
          .error "Content is the same, no changes made"
        else
          let fullContent := document.content.take chunkStart.chunk.range.start
            ++ replacedText ++ document.content.drop chunkEnd.chunk.range.stop
          let r := addDocument embed st fullContent document.metadata
          .ok ⟨r.1, (deleteDocument r.2 docId).2⟩

/-- Dot product as accumulated by the similarity loops (componentwise over
the common length). -/
def dotList (a b : List ℚ) : ℚ :=
  (List.zipWith (fun x y => x * y) a b).foldl (fun s z => s + z) 0

/-- `normA`-style accumulator: the sum of squares of a vector. -/
def sumSq (a : List ℚ) : ℚ :=
  a.foldl (fun s x => s + x * x) 0

/-- A JavaScript division: a zero denominator yields no finite number
(`NaN` or `±Infinity`), modeled as `none`. -/
def jsDiv (x y : ℚ) : Option ℚ :=
  if y = 0 then none else some (x / y)

/-- `EmbeddingService.cosineSimilarity` (file `embeddings.ts`), the
similarity used by `InMemoryDocumentStore.search`.  It throws on vectors of
different length (modeled by `Except.error` with the thrown message), and
returns `0` when either sum of squares is `0` — this test happens before
any square root is taken.  `sqrtQ` models `Math.sqrt`. -/
def cosineSimilarity (sqrtQ : ℚ → ℚ) (a b : List ℚ) : Except String ℚ :=
  if a.length = b.length then
    if sumSq a = 0 ∨ sumSq b = 0 then .ok 0
    else .ok (dotList a b / (sqrtQ (sumSq a) * sqrtQ (sumSq b)))
  else
    .error "Vectors must have the same length"

/-- The dot product of `SQLiteDocumentStore.cosineSimilarity`:
`a.reduce((sum, ai, i) => sum + ai * b[i], 0)` iterates over the indices of
`a`; when `a` is longer than `b` the access `b[i]` is `undefined` and the
whole sum is `NaN` (`none`). -/
def sqliteDot (a b : List ℚ) : Option ℚ :=
  if a.length ≤ b.length then some (dotList a b) else none

/-- `SQLiteDocumentStore.cosineSimilarity` (file `sqliteDocumentStore.ts`):
no length check and no zero-magnitude guard; `none` models a non-finite
result (`NaN`/`±Infinity`). -/
def sqliteCosineSimilarity (sqrtQ : ℚ → ℚ) (a b : List ℚ) : Option ℚ :=
  match sqliteDot a b with
  | none => none
  | some d => jsDiv d (sqrtQ (sumSq a) * sqrtQ (sumSq b))

/-- One scored search result. -/
structure SearchResult where
  chunk : Chunk
  similarity : ℚ
  deriving Repr, DecidableEq

/-- The `this.chunks.map(...)` step of `InMemoryDocumentStore.search`: score
every indexed entry against the query embedding; an exception thrown by
`cosineSimilarity` aborts the whole map. -/
def scoreAll (sqrtQ : ℚ → ℚ) (queryEmbedding : List ℚ) :
    List IndexEntry → Except String (List SearchResult)
  | [] => .ok []
  | en :: ens =>
    match cosineSimilarity sqrtQ queryEmbedding en.embedding with
    | .error msg => .error msg
    | .ok s => (scoreAll sqrtQ queryEmbedding ens).map
        (fun rest => ⟨en.chunk, s⟩ :: rest)

/-- `similarities.sort((a, b) => b.similarity - a.similarity)`:
`Array.prototype.sort` is a stable sort and the comparator orders by
non-increasing similarity; modeled by the stable `insertionSort`. -/
def sortBySimDesc (l : List SearchResult) : List SearchResult :=
  List.insertionSort (fun a b => b.similarity ≤ a.similarity) l

/-- `InMemoryDocumentStore.search(query, topK)`. -/
def search (sqrtQ : ℚ → ℚ) (embed : List Char → List ℚ) (st : StoreState)
    (query : List Char) (topK : ℕ) : Except String (List SearchResult) :=
  (scoreAll sqrtQ (embed query) st.chunks).map
    (fun sims => (sortBySimDesc sims).take topK)

/-- The `search` action of `createKnowledgeExecutor` (file
`tools/knowledge.ts`): `docStore.search(query, topK + skip)` followed by
`results.slice(skip)`. -/
def searchPaginated (sqrtQ : ℚ → ℚ) (embed : List Char → List ℚ)
    (st : StoreState) (query : List Char) (topK skip : ℕ) :
    Except String (List SearchResult) :=
  (search sqrtQ embed st query (topK + skip)).map (fun results => results.drop skip)

/-- Modelled from the spec (§4.2 search contract): `search(query, topK, skip)`
takes the top `topK + skip` indexed chunks by similarity and drops the
first `skip`.  Used to compare the executor's pagination against the
contract. -/
def specSearchSkip (sqrtQ : ℚ → ℚ) (embed : List Char → List ℚ)
    (st : StoreState) (query : List Char) (topK skip : ℕ) :
    Except String (List SearchResult) :=
  (scoreAll sqrtQ (embed query) st.chunks).map
    (fun sims => (((sortBySimDesc sims).take (topK + skip)).drop skip))

/-- One output unit of `documentRender` (file `tools/knowledge.ts`): a
`<chunk indexStart=.. indexEnd=..>` element, either shown with the
reconstructed text or marked omitted. -/
inductive RUnit where
  | shown (lo hi : ℕ) (text : List Char)
  | omitted (lo hi : ℕ)
  deriving Repr, DecidableEq

/-- First chunk index of a unit. -/
def RUnit.lo : RUnit → ℕ
  | .shown l _ _ => l
  | .omitted l _ => l

/-- Last chunk index of a unit. -/
def RUnit.hi : RUnit → ℕ
  | .shown _ h _ => h
  | .omitted _ h => h

/-- `chunks.sort((a, b) => a.start - b.start)`: stable sort of the requests
of one document by `startIndex`. -/
def sortByStart (reqs : List (ℕ × ℕ)) : List (ℕ × ℕ) :=
  List.insertionSort (fun a b => a.1 ≤ b.1) reqs

/-- The merging loop of `documentRender` after the first request has opened
the current interval `cur`:

```
const end = Math.min(chunk.end, document.numberOfChunks - 1);
if (mergedChunks.length === 0 || mergedChunks[last].end + 1 < chunk.start) {
  mergedChunks.push({ start: chunk.start, end });
} else {
  mergedChunks[last].end = Math.max(mergedChunks[last].end, end);
}
```
-/
def mergeGo (n : ℕ) (cur : ℕ × ℕ) : List (ℕ × ℕ) → List (ℕ × ℕ)
  | [] => [cur]
  | r :: rs =>
    let e := min r.2 (n - 1)
    if cur.2 + 1 < r.1 then cur :: mergeGo n (r.1, e) rs
    else mergeGo n (cur.1, max cur.2 e) rs

/-- The full merging loop: the first (already sorted) request opens the
current interval, with its `end` clipped to `numberOfChunks - 1`. -/
def mergeReqs (n : ℕ) : List (ℕ × ℕ) → List (ℕ × ℕ)
  | [] => []
  | r :: rs => mergeGo n (r.1, min r.2 (n - 1)) rs

/-- The emission walk of `documentRender` over the merged intervals,
carrying `lastChunkIndex` as `cursor`.  A failed chunk lookup is the thrown
`Error` of the source, modeled as `none`. -/
def renderWalk (doc : Document) (getChunk : ℕ → Option Chunk) :
    ℕ → List (ℕ × ℕ) → Option (List RUnit)
  | _, [] => some []
  | cursor, (s, e) :: rest =>
    let lead : List RUnit := if cursor < s then [.omitted cursor (s - 1)] else []
    match getChunk s, getChunk e with
    | some cS, some cE =>
      (renderWalk doc getChunk (e + 1) rest).map
        (fun units =>
          lead ++ .shown s e (jsSlice doc.content cS.range.start cE.range.stop) :: units)
    | _, _ => none

/-- The `<document id=... createdAt=...>` header that `documentRender`
pushes after merging, before the walk: it evaluates
`document.createdAt.toISOString()`.  No `Document` of this repository
carries a `createdAt` field — the `documentStore.ts` interface has only
`id`, `content`, `numberOfChunks`, `metadata`, the in-memory
`addDocument` builds exactly that literal, and
`SQLiteDocumentStore.getDocument` constructs its result from only those
four columns — so the access yields `undefined` and `.toISOString()`
throws a `TypeError`: the evaluation never produces a string (`none`). -/
def documentHeader (_doc : Document) : Option (List Char) :=
  none

/-- The per-document body of `documentRender` (file `tools/knowledge.ts`)
for a document that exists: sort the document's requests by start index,
merge them, push the document header, walk the merged intervals emitting
shown/omitted units, then emit the trailing omitted unit (read from
`mergedChunks[mergedChunks.length - 1].end`) if the last merged interval
stops short of the last chunk.  `getChunk` is the store lookup
`docStore.getChunkByIndex(docId, ·)`.  `none` models a thrown error; in
particular the header's `createdAt` `TypeError` (`documentHeader`) fires
for every found document, before any unit is emitted — the walk
(`renderWalk`, analysed separately in `renderWalk_tiles`) is unreachable
in the program as written. -/
def documentRender1 (doc : Document) (getChunk : ℕ → Option Chunk)
    (reqs : List (ℕ × ℕ)) : Option (List RUnit) :=
  match documentHeader doc with
  | none => none
  | some _ =>
    match renderWalk doc getChunk 0 (mergeReqs doc.numberOfChunks (sortByStart reqs)) with
    | none => none
    | some units =>
      match (mergeReqs doc.numberOfChunks (sortByStart reqs)).getLast? with
      | none => none
      | some lastI =>
        some (units ++
          (if lastI.2 < doc.numberOfChunks - 1 then
            [.omitted (lastI.2 + 1) (doc.numberOfChunks - 1)]
          else []))

/-- The windows produced by the chunk loop, related to the cursor positions:
starting from cursor `st`, each window is `text.slice(cursor, end)` and the
next cursor is `end - overlap`. -/
def windowsOK (text : List Char) (overlap : ℕ) : ℕ → List (List Char) → List ℕ → Prop
  | _, [], [] => True
  | st, c :: cs, e :: es =>
      c = jsSlice text st e ∧ windowsOK text overlap (e - overlap) cs es
  | _, _, _ => False

/-- The reconstruction ranges of a chunk list partition `[prev, len)`:
the first chunk starts at `prev`, each chunk starts where the previous one
stopped, and the last chunk stops at `len` (for an empty list this forces
`prev = len`). -/
def rangesPartitionFrom (len : ℕ) : ℕ → List Chunk → Prop
  | prev, [] => prev = len
  | prev, c :: rest =>
      c.range.start = prev ∧ rangesPartitionFrom len c.range.stop rest

/-- Every chunk's embedding window stops exactly at its reconstruction
`range.end`, and starts `overlap` characters before `range.start` (at `0`
for chunk index `0`). -/
def windowsMatch (text : List Char) (overlap : ℕ) : List Chunk → Prop
  | [] => True
  | c :: rest =>
      c.content =
        jsSlice text (if c.chunkIndex = 0 then 0 else c.range.start - overlap)
          c.range.stop
      ∧ windowsMatch text overlap rest

/-- Structural facts about one successful run of the chunk loop, for a
valid configuration (`overlap < size`): windows and ends have equal length,
the windows follow the cursor (`windowsOK`), the ends are strictly
increasing above the start cursor, every end is at most `text.length`, and
when the loop runs at all the first end is `min (start + size) text.length`
and the last end is `text.length`. -/
theorem chunkGo_spec (size overlap : ℕ) (hov : overlap < size) (text : List Char) :
    ∀ fuel start cs es, chunkGo size overlap text fuel start = some (cs, es) →
      cs.length = es.length ∧
      windowsOK text overlap start cs es ∧
      List.Chain (· < ·) start es ∧
      (∀ x ∈ es, x ≤ text.length) ∧
      (start < text.length →
        es.getLast? = some text.length ∧
        es.head? = some (min (start + size) text.length)) ∧
      (text.length ≤ start → cs = [] ∧ es = []) := by
  intro fuel
  induction fuel with
  | zero => intro start cs es h; simp [chunkGo] at h
  | succ fuel ih =>
    intro start cs es h
    rw [chunkGo] at h
    by_cases hs : start < text.length
    · rw [if_pos hs] at h
      simp only at h
      by_cases hend : text.length ≤ min (start + size) text.length
      · rw [if_pos hend] at h
        have hmin : min (start + size) text.length = text.length := by omega
        injection h with h
        injection h with h1 h2
        subst h1; subst h2
        refine ⟨rfl, ⟨rfl, trivial⟩, ?_, ?_, ?_, ?_⟩
        · exact List.Chain.cons (by omega) (List.Chain.nil)
        · intro x hx
          simp at hx
          omega
        · intro _
          constructor
          · simp [hmin]
          · rfl
        · intro hle; omega
      · rw [if_neg hend] at h
        have hlt : min (start + size) text.length < text.length := by omega
        have hmin : min (start + size) text.length = start + size := by omega
        cases hrec : chunkGo size overlap text fuel (min (start + size) text.length - overlap) with
        | none => rw [hrec] at h; exact absurd h (by simp)
        | some p =>
          obtain ⟨cs', es'⟩ := p
          rw [hrec] at h
          injection h with h
          injection h with h1 h2
          subst h1; subst h2
          obtain ⟨ihlen, ihwin, ihchain, ihbound, ihlast, _⟩ := ih _ cs' es' hrec
          have hcur : min (start + size) text.length - overlap < text.length := by omega
          obtain ⟨ihlast', ihhead'⟩ := ihlast hcur
          -- es' is nonempty and its head exceeds start + size
          cases es' with
          | nil => simp at ihhead'
          | cons x l' =>
            simp only [List.head?] at ihhead'
            injection ihhead' with hx
            have hxgt : start + size < x := by
              have h1 : overlap ≤ start + size := by omega
              have := hmin
              omega
            refine ⟨by simp [ihlen], ⟨rfl, ihwin⟩, ?_, ?_, ?_, ?_⟩
            · refine List.Chain.cons (by omega) ?_
              rw [hmin]
              rcases (List.chain_cons.mp ihchain) with ⟨_, hchain'⟩
              exact List.chain_cons.mpr ⟨hxgt, hchain'⟩
            · intro y hy
              simp at hy
              rcases hy with hy | hy
              · omega
              · exact ihbound y (by simp [hy])
            · intro _
              constructor
              · rw [List.getLast?_cons_cons]
                exact ihlast'
              · rfl
            · intro hle; omega
    · rw [if_neg hs] at h
      injection h with h
      injection h with h1 h2
      subst h1; subst h2
      refine ⟨rfl, trivial, List.Chain.nil, by simp, ?_, fun _ => ⟨rfl, rfl⟩⟩
      intro h'; omega

/-- For a valid configuration (`overlap < size`) the chunk loop terminates:
any fuel exceeding `text.length - start` suffices. -/
theorem chunkGo_isSome (size overlap : ℕ) (hov : overlap < size) (text : List Char) :
    ∀ fuel start, text.length - start < fuel →
      ∃ r, chunkGo size overlap text fuel start = some r := by
  intro fuel
  induction fuel with
  | zero => intro start h; omega
  | succ fuel ih =>
    intro start h
    rw [chunkGo]
    by_cases hs : start < text.length
    · rw [if_pos hs]
      simp only
      by_cases hend : text.length ≤ min (start + size) text.length
      · rw [if_pos hend]
        exact ⟨_, rfl⟩
      · rw [if_neg hend]
        have hmin : min (start + size) text.length = start + size := by omega
        obtain ⟨r, hr⟩ := ih (min (start + size) text.length - overlap) (by omega)
        rw [hr]
        obtain ⟨cs, es⟩ := r
        exact ⟨_, rfl⟩
    · rw [if_neg hs]
      exact ⟨_, rfl⟩

/-- For a valid configuration, `chunk` is the (unique) result of the loop. -/
theorem chunkGo_eq_chunk (size overlap : ℕ) (hov : overlap < size) (text : List Char) :
    chunkGo size overlap text (text.length + 1) 0 = some (chunk size overlap text) := by
  obtain ⟨r, hr⟩ := chunkGo_isSome size overlap hov text (text.length + 1) 0 (by omega)
  rw [chunk, hr]
  rfl

/-- `text.slice(p, p)` is empty. -/
theorem jsSlice_self (t : List Char) (p : ℕ) : jsSlice t p p = [] := by
  apply List.drop_eq_nil_of_le
  simp

/-- Adjacent slices concatenate: `t.slice(b, e) + t.slice(e, L) = t.slice(b, L)`
for `b ≤ e ≤ L ≤ t.length`. -/
theorem jsSlice_append (t : List Char) (b e L : ℕ)
    (h1 : b ≤ e) (h2 : e ≤ L) (h3 : L ≤ t.length) :
    jsSlice t b e ++ jsSlice t e L = jsSlice t b L := by
  unfold jsSlice
  have htk : t.take e = (t.take L).take e := by
    rw [List.take_take]
    congr 1
    omega
  have hsplit : t.take L = (t.take L).take e ++ (t.take L).drop e :=
    (List.take_append_drop e (t.take L)).symm
  calc (t.take e).drop b ++ (t.take L).drop e
      = ((t.take L).take e).drop b ++ (t.take L).drop e := by rw [htk]
    _ = (((t.take L).take e) ++ (t.take L).drop e).drop b := by
        rw [List.drop_append_eq_append_drop]
        have hlen : ((t.take L).take e).length = e := by
          simp
          omega
        rw [hlen]
        have : b - e = 0 := by omega
        rw [this]
        simp
    _ = (t.take L).drop b := by rw [← hsplit]

/-- The default of `getLastD` propagates an upper bound. -/
theorem getLastD_le_of_forall (l : List ℕ) (d n : ℕ)
    (hd : d ≤ n) (hl : ∀ x ∈ l, x ≤ n) : l.getLastD d ≤ n := by
  induction l generalizing d with
  | nil => simpa using hd
  | cons x l ih =>
    rw [List.getLastD_cons]
    exact ih x (hl x (by simp)) (fun y hy => hl y (by simp [hy]))

/-- A strictly increasing chain keeps its base below (or at) its last value. -/
theorem chain_lt_le_getLastD (l : List ℕ) (b : ℕ)
    (h : List.Chain (· < ·) b l) : b ≤ l.getLastD b := by
  induction l generalizing b with
  | nil => simp
  | cons x l ih =>
    rcases List.chain_cons.mp h with ⟨hbx, hchain⟩
    rw [List.getLastD_cons]
    exact le_trans (le_of_lt hbx) (ih x hchain)

/-- A chunk list built by `mkChunks` over equal-length window/end lists has
ranges that partition `[prev, last end)`. -/
theorem mkChunks_rangesPartition (docId : ℕ) :
    ∀ (cs : List (List Char)) (es : List ℕ) (i prev : ℕ),
      cs.length = es.length →
      rangesPartitionFrom (es.getLastD prev) prev (mkChunks docId i prev cs es) := by
  intro cs
  induction cs with
  | nil =>
    intro es i prev hlen
    cases es with
    | nil => simp [mkChunks, rangesPartitionFrom]
    | cons e es => simp at hlen
  | cons w ws ih =>
    intro es i prev hlen
    cases es with
    | nil => simp at hlen
    | cons e es =>
      rw [List.getLastD_cons]
      exact ⟨rfl, ih es (i + 1) e (by simpa using hlen)⟩

/-- Concatenating the range slices of a `mkChunks` chunk list reconstructs
the slice from `prev` to the last end. -/
theorem mkChunks_flatten (t : List Char) (docId : ℕ) :
    ∀ (cs : List (List Char)) (es : List ℕ) (i prev : ℕ),
      cs.length = es.length →
      List.Chain (· < ·) prev es →
      (∀ x ∈ es, x ≤ t.length) →
      prev ≤ t.length →
      ((mkChunks docId i prev cs es).map
        (fun c => jsSlice t c.range.start c.range.stop)).flatten
        = jsSlice t prev (es.getLastD prev) := by
  intro cs
  induction cs with
  | nil =>
    intro es i prev hlen _ _ _
    cases es with
    | nil => simp [mkChunks, jsSlice_self]
    | cons e es => simp at hlen
  | cons w ws ih =>
    intro es i prev hlen hchain hbound hprev
    cases es with
    | nil => simp at hlen
    | cons e es =>
      rcases List.chain_cons.mp hchain with ⟨hpe, hchain'⟩
      have he : e ≤ t.length := hbound e (by simp)
      have hrec := ih es (i + 1) e (by simpa using hlen) hchain'
        (fun y hy => hbound y (by simp [hy])) he
      rw [List.getLastD_cons]
      simp only [mkChunks, List.map_cons, List.flatten_cons]
      rw [hrec]
      exact jsSlice_append t prev e (es.getLastD e) (le_of_lt hpe)
        (chain_lt_le_getLastD es e hchain')
        (getLastD_le_of_forall es e t.length he
          (fun y hy => hbound y (by simp [hy])))

/-- `text.slice(0, text.length)` is the whole text. -/
theorem jsSlice_full (t : List Char) : jsSlice t 0 t.length = t := by
  simp [jsSlice]

/-- `chunk` packaged facts for a valid configuration, at the loop's real
entry point `start = 0`. -/
theorem chunk_spec (size overlap : ℕ) (hov : overlap < size) (text : List Char) :
    (chunk size overlap text).1.length = (chunk size overlap text).2.length ∧
    windowsOK text overlap 0 (chunk size overlap text).1 (chunk size overlap text).2 ∧
    List.Chain (· < ·) 0 (chunk size overlap text).2 ∧
    (∀ x ∈ (chunk size overlap text).2, x ≤ text.length) ∧
    (0 < text.length →
      (chunk size overlap text).2.getLast? = some text.length ∧
      (chunk size overlap text).2.head? = some (min size text.length)) ∧
    (text.length = 0 → chunk size overlap text = ([], [])) := by
  have h := chunkGo_eq_chunk size overlap hov text
  obtain ⟨h1, h2, h3, h4, h5, h6⟩ :=
    chunkGo_spec size overlap hov text (text.length + 1) 0
      (chunk size overlap text).1 (chunk size overlap text).2 (by rw [h])
  refine ⟨h1, h2, h3, h4, ?_, ?_⟩
  · intro hpos
    obtain ⟨ha, hb⟩ := h5 hpos
    exact ⟨ha, by simpa using hb⟩
  · intro hz
    obtain ⟨ha, hb⟩ := h6 (by omega)
    have : chunk size overlap text = ((chunk size overlap text).1, (chunk size overlap text).2) := rfl
    rw [this, ha, hb]

/-- `mkChunks` produces one chunk per window when windows and ends align. -/
theorem mkChunks_length (docId : ℕ) :
    ∀ (cs : List (List Char)) (es : List ℕ) (i prev : ℕ),
      cs.length = es.length →
      (mkChunks docId i prev cs es).length = cs.length := by
  intro cs
  induction cs with
  | nil => intro es i prev _; cases es <;> simp [mkChunks]
  | cons w ws ih =>
    intro es i prev hlen
    cases es with
    | nil => simp at hlen
    | cons e es => simp [mkChunks, ih es (i + 1) e (by simpa using hlen)]

/-- C1.  Every document returned by `addDocument` carries chunk ranges that
partition its canonical content: `numberOfChunks` is the number of created
chunks, the created chunks (which `addDocument` appends to the store's
index, pairing each with its embedding) have `range.start = 0` for chunk 0,
each chunk starts where the previous one stops, the last chunk stops at
`content.length`, and concatenating `content.slice(range.start, range.end)`
over the chunks in order reproduces `content` exactly. -/
theorem c1_addDocument_ranges_partition (embed : List Char → List ℚ)
    (st : StoreState) (content : List Char) (m : ℕ) :
    (addDocument embed st content m).1.numberOfChunks
        = (mkDocChunks 500 100 st.nextId content).length
    ∧ (addDocument embed st content m).2.chunks
        = st.chunks ++ (mkDocChunks 500 100 st.nextId content).map
            (fun c => ⟨c, embed c.content⟩)
    ∧ rangesPartitionFrom content.length 0 (mkDocChunks 500 100 st.nextId content)
    ∧ ((mkDocChunks 500 100 st.nextId content).map
        (fun c => jsSlice content c.range.start c.range.stop)).flatten = content := by
  have hov : (100 : ℕ) < 500 := by norm_num
  obtain ⟨hlen, hwin, hchain, hbound, hnz, hz⟩ := chunk_spec 500 100 hov content
  have hlast : (chunk 500 100 content).2.getLastD 0 = content.length := by
    by_cases hpos : 0 < content.length
    · obtain ⟨ha, _⟩ := hnz hpos
      cases hse : (chunk 500 100 content).2 with
      | nil => rw [hse] at ha; simp at ha
      | cons x l =>
        rw [hse] at ha
        rw [List.getLastD_eq_getLast?, ha]
        rfl
    · have h0 : content.length = 0 := by omega
      rw [hz h0]
      simpa using h0.symm
  refine ⟨rfl, rfl, ?_, ?_⟩
  · have := mkChunks_rangesPartition st.nextId (chunk 500 100 content).1
      (chunk 500 100 content).2 0 0 hlen
    rw [hlast] at this
    exact this
  · have := mkChunks_flatten content st.nextId (chunk 500 100 content).1
      (chunk 500 100 content).2 0 0 hlen hchain hbound (by omega)
    rw [hlast] at this
    rw [mkDocChunks, this]
    exact jsSlice_full content

/-- C10 helper: the windows of a `mkChunks` chunk list are the ranges
extended backwards by `overlap` (chunk 0's window starts at `0`). -/
theorem mkChunks_windowsMatch (t : List Char) (overlap docId : ℕ) :
    ∀ (cs : List (List Char)) (es : List ℕ) (i prev cur : ℕ),
      windowsOK t overlap cur cs es →
      (i = 0 → cur = 0) →
      (i ≠ 0 → cur = prev - overlap) →
      windowsMatch t overlap (mkChunks docId i prev cs es) := by
  intro cs
  induction cs with
  | nil => intro es i prev cur _ _ _; cases es <;> trivial
  | cons w ws ih =>
    intro es i prev cur hwin h0 h1
    cases es with
    | nil => exact absurd hwin (by simp [windowsOK])
    | cons e es =>
      obtain ⟨hw, hrest⟩ := hwin
      refine ⟨?_, ?_⟩
      · by_cases hi : i = 0
        · simp [hi, hw, h0 hi]
        · simp [hi, hw, h1 hi]
      · exact ih es (i + 1) e (e - overlap) hrest (by omega) (fun _ => rfl)

/-- C10.  For every document created through the `addDocument` path of a
store whose chunker satisfies `overlap < size`, each created chunk's
embedding window stops exactly at its `range.end`, chunk 0's window is
`content.slice(0, range.end)`, and every later chunk's window is
`content.slice(range.start - overlap, range.end)`.  (The repository's
stores use the default configuration `size = 500`, `overlap = 100`.) -/
theorem c10_windows_extend_ranges_by_overlap (size overlap : ℕ)
    (embed : List Char → List ℚ) (st : StoreState) (content : List Char)
    (m : ℕ) (hov : overlap < size) :
    windowsMatch content overlap (mkDocChunks size overlap st.nextId content)
    ∧ (addDocumentWith size overlap embed st content m).1.numberOfChunks
        = (mkDocChunks size overlap st.nextId content).length
    ∧ (addDocumentWith size overlap embed st content m).2.chunks
        = st.chunks ++ (mkDocChunks size overlap st.nextId content).map
            (fun c => ⟨c, embed c.content⟩) := by
  obtain ⟨hlen, hwin, _, _, _, _⟩ := chunk_spec size overlap hov content
  exact ⟨mkChunks_windowsMatch content overlap st.nextId
    (chunk size overlap content).1 (chunk size overlap content).2 0 0 0 hwin
    (fun _ => rfl) (fun h => absurd rfl h), rfl, rfl⟩

/-- C10 witness: the theorem applied to the store defaults
(`size = 500`, `overlap = 100`) on a concrete two-character document. -/
theorem c10_windows_extend_ranges_by_overlap_witness :
    windowsMatch ['h', 'i'] 100 (mkDocChunks 500 100 0 ['h', 'i']) :=
  (c10_windows_extend_ranges_by_overlap 500 100 (fun _ => []) emptyStore
    ['h', 'i'] 0 (by norm_num)).1

/-- When `0 < len(text) ≤ chunkSize`, the partitioner emits a single window
equal to the whole text, with the single boundary `len(text)` (no validity
condition on `overlap` is needed: the loop stops in its first iteration). -/
theorem chunk_single (size overlap : ℕ) (text : List Char)
    (hpos : 0 < text.length) (hle : text.length ≤ size) :
    chunk size overlap text = ([text], [text.length]) := by
  have hmin : size ⊓ text.length = text.length := by omega
  simp [chunk, chunkGo, hpos, hle, hmin, jsSlice_full]

/-- C7 counterexample: `addDocument` on the empty string produces a document
with `numberOfChunks = 0` (the chunk loop body never runs), violating the
claimed `numberOfChunks ≥ 1`. -/
theorem c7_counterexample_empty_content :
    (addDocument (fun _ => []) emptyStore [] 0).1.numberOfChunks = 0 := by
  decide

/-- C7 (amended).  For every nonempty input text, `addDocument` produces a
document with `numberOfChunks ≥ 1`; in particular, when
`len(text) ≤ chunkSize` (`500` in `addDocument`) the partitioner emits
exactly one window equal to the whole text with one boundary at
`len(text)`, and `numberOfChunks = 1`.  (The empty string yields
`numberOfChunks = 0`, see the counterexample.) -/
theorem c7_nonempty_content_at_least_one_chunk (embed : List Char → List ℚ)
    (st : StoreState) (content : List Char) (m : ℕ) (hne : content ≠ []) :
    1 ≤ (addDocument embed st content m).1.numberOfChunks
    ∧ (content.length ≤ 500 →
        chunk 500 100 content = ([content], [content.length])
        ∧ (addDocument embed st content m).1.numberOfChunks = 1) := by
  have hov : (100 : ℕ) < 500 := by norm_num
  have hpos : 0 < content.length := List.length_pos.mpr hne
  obtain ⟨hlen, _, _, _, hnz, _⟩ := chunk_spec 500 100 hov content
  obtain ⟨_, hhead⟩ := hnz hpos
  have hnchunks : (addDocument embed st content m).1.numberOfChunks
      = (mkDocChunks 500 100 st.nextId content).length := rfl
  have hmk := mkChunks_length st.nextId (chunk 500 100 content).1
    (chunk 500 100 content).2 0 0 hlen
  constructor
  · rw [hnchunks, mkDocChunks, hmk]
    cases hcs : (chunk 500 100 content).1 with
    | nil =>
      rw [hcs] at hlen
      cases hes : (chunk 500 100 content).2 with
      | nil => rw [hes] at hhead; simp at hhead
      | cons x l => rw [hes] at hlen; simp at hlen
    | cons w ws => simp
  · intro hsmall
    have hsingle := chunk_single 500 100 content hpos hsmall
    refine ⟨hsingle, ?_⟩
    rw [hnchunks, mkDocChunks, hmk, hsingle]
    rfl

/-- C7 witness: the amended theorem applied to a one-character document. -/
theorem c7_nonempty_content_at_least_one_chunk_witness :
    1 ≤ (addDocument (fun _ => []) emptyStore ['a'] 0).1.numberOfChunks
    ∧ chunk 500 100 ['a'] = ([['a']], [1]) :=
  ⟨(c7_nonempty_content_at_least_one_chunk (fun _ => []) emptyStore ['a'] 0
      (by simp)).1,
   ((c7_nonempty_content_at_least_one_chunk (fun _ => []) emptyStore ['a'] 0
      (by simp)).2 (by simp)).1⟩

/-- The chunk loop, started at `start = 0`, completes within some fuel
(i.e. the `while` loop of `TextChunker.chunk` terminates). -/
def chunkTerminates (size overlap : ℕ) (text : List Char) : Prop :=
  ∃ fuel r, chunkGo size overlap text fuel 0 = some r

/-- With `chunkOverlap = chunkSize = 2` on a 3-character text the cursor is
reset to `0` on every iteration: no amount of fuel completes the loop. -/
theorem chunkGo_stuck_two_two :
    ∀ fuel, chunkGo 2 2 (['a', 'a', 'a']) fuel 0 = none := by
  intro fuel
  induction fuel with
  | zero => rfl
  | succ fuel ih => simp [chunkGo, ih]

/-- C8 counterexample: the partitioner accepts the configuration
`chunkSize = 2`, `chunkOverlap = 2` unchanged (no rejection, no clamping),
and on a 3-character text its loop never terminates. -/
theorem c8_counterexample_overlap_eq_size :
    ¬ chunkTerminates 2 2 (['a', 'a', 'a']) := by
  rintro ⟨fuel, r, hr⟩
  rw [chunkGo_stuck_two_two fuel] at hr
  exact absurd hr (by simp)

/-- C8 (amended).  `TextChunker.chunk` performs no validation: for
`chunkOverlap ≥ chunkSize` and a text longer than `chunkSize` the loop
never terminates (see the counterexample).  For every configuration with
`chunkOverlap < chunkSize` — in particular the defaults `(500, 100)`, the
only configuration the repository ever constructs — the loop terminates on
every text. -/
theorem c8_loop_terminates_iff_valid_config (size overlap : ℕ)
    (text : List Char) (hov : overlap < size) :
    chunkTerminates size overlap text := by
  obtain ⟨r, hr⟩ := chunkGo_isSome size overlap hov text (text.length + 1) 0 (by omega)
  exact ⟨text.length + 1, r, hr⟩

/-- C8 witness: the default configuration terminates on a concrete text. -/
theorem c8_loop_terminates_iff_valid_config_witness :
    chunkTerminates 500 100 ['o', 'k'] :=
  c8_loop_terminates_iff_valid_config 500 100 ['o', 'k'] (by norm_num)

/-- C9 counterexample: for `chunkSize = 10`, `chunkOverlap = 3` and a
25-character text the partitioner does NOT produce 3 chunks with
boundaries `10, 20, 25` — the cursor advances by `size - overlap = 7`
after the first chunk. -/
theorem c9_counterexample_boundaries :
    (chunk 10 3 (List.replicate 25 'a')).2 ≠ [10, 20, 25]
    ∧ (chunk 10 3 (List.replicate 25 'a')).1.length ≠ 3 := by
  decide

/-- C9 (amended).  For `chunkSize = 10`, `chunkOverlap = 3` and any text of
length 25, the partitioner produces exactly 4 chunks with boundaries
`10, 17, 24, 25`; chunk 1's embedding window is `text[7:17]` (started at
`10 - 3`) while its reconstruction range is `[10, 17)`. -/
theorem c9_chunk_10_3_len25 (docId : ℕ) (text : List Char)
    (h : text.length = 25) :
    (chunk 10 3 text).2 = [10, 17, 24, 25]
    ∧ (chunk 10 3 text).1.length = 4
    ∧ (mkDocChunks 10 3 docId text)[1]?
        = some ⟨jsSlice text 7 17, docId, 1, ⟨10, 17⟩⟩ := by
  have hchunk : chunk 10 3 text =
      ([jsSlice text 0 10, jsSlice text 7 17, jsSlice text 14 24,
        jsSlice text 21 25], [10, 17, 24, 25]) := by
    rw [chunk, h]
    simp [chunkGo, h]
  refine ⟨by rw [hchunk], by rw [hchunk]; rfl, ?_⟩
  rw [mkDocChunks, hchunk]
  simp [mkChunks]

/-- C9 witness: the amended theorem at a concrete 25-character text. -/
theorem c9_chunk_10_3_len25_witness :
    (chunk 10 3 (List.replicate 25 'a')).2 = [10, 17, 24, 25] :=
  (c9_chunk_10_3_len25 0 (List.replicate 25 'a') (by simp)).1

/-- `units` tile the inclusive chunk-index range `[lo, hi]` exactly: the
first unit starts at `lo`, each unit is nonempty and stays within `hi`,
each subsequent unit starts right after the previous one, and the last
unit stops at `hi` (an empty unit list forces `lo = hi + 1`). -/
def tiles : List RUnit → ℕ → ℕ → Prop
  | [], lo, hi => lo = hi + 1
  | u :: rest, lo, hi => u.lo = lo ∧ lo ≤ u.hi ∧ u.hi ≤ hi ∧ tiles rest (u.hi + 1) hi

/-- Invariant of the merged interval list: starts bounded below by `lb`,
each interval is nonempty (`s ≤ e`), clipped (`e ≤ n - 1`), and
consecutive intervals leave a gap of at least one omitted index
(`e + 2 ≤` next start). -/
def MergedGood (n : ℕ) : ℕ → List (ℕ × ℕ) → Prop
  | _, [] => True
  | lb, r :: rest => lb ≤ r.1 ∧ r.1 ≤ r.2 ∧ r.2 ≤ n - 1 ∧ MergedGood n (r.2 + 2) rest

/-- `mergeGo` never returns an empty list. -/
theorem mergeGo_ne_nil (n : ℕ) :
    ∀ (rs : List (ℕ × ℕ)) (cur : ℕ × ℕ), mergeGo n cur rs ≠ [] := by
  intro rs
  induction rs with
  | nil => intro cur; simp [mergeGo]
  | cons r rs ih =>
    intro cur
    rw [mergeGo]
    by_cases hc : cur.2 + 1 < r.1
    · rw [if_pos hc]; simp
    · rw [if_neg hc]; exact ih _

/-- Every interval produced by `mergeGo` satisfies the `MergedGood`
invariant, provided the remaining requests are sorted by start, start at or
after the current interval's start, and are well-formed
(`start ≤ end`, `start ≤ n - 1`). -/
theorem mergeGo_good (n : ℕ) :
    ∀ (rs : List (ℕ × ℕ)) (cur : ℕ × ℕ) (lb : ℕ),
      lb ≤ cur.1 → cur.1 ≤ cur.2 → cur.2 ≤ n - 1 →
      (∀ r ∈ rs, cur.1 ≤ r.1 ∧ r.1 ≤ r.2 ∧ r.1 ≤ n - 1) →
      List.Pairwise (fun a b : ℕ × ℕ => a.1 ≤ b.1) rs →
      MergedGood n lb (mergeGo n cur rs) := by
  intro rs
  induction rs with
  | nil =>
    intro cur lb h1 h2 h3 _ _
    exact ⟨h1, h2, h3, trivial⟩
  | cons r rs ih =>
    intro cur lb h1 h2 h3 hwf hsorted
    obtain ⟨hr1, hr2, hr3⟩ := hwf r (by simp)
    rcases List.pairwise_cons.mp hsorted with ⟨hhead, htail⟩
    rw [mergeGo]
    by_cases hc : cur.2 + 1 < r.1
    · rw [if_pos hc]
      refine ⟨h1, h2, h3, ?_⟩
      exact ih (r.1, min r.2 (n - 1)) (cur.2 + 2) (by omega) (by simp; omega)
        (by simp)
        (fun r' hr' => ⟨hhead r' hr', (hwf r' (by simp [hr'])).2⟩) htail
    · rw [if_neg hc]
      exact ih (cur.1, max cur.2 (min r.2 (n - 1))) lb h1 (by simp; omega)
        (by simp; omega)
        (fun r' hr' => ⟨(hwf r' (by simp [hr'])).1, (hwf r' (by simp [hr'])).2⟩)
        htail

/-- All intervals in a `MergedGood` list are clipped below `n`. -/
theorem mergedGood_bounds (n : ℕ) :
    ∀ (l : List (ℕ × ℕ)) (lb : ℕ), MergedGood n lb l →
      ∀ r ∈ l, r.1 ≤ r.2 ∧ r.2 ≤ n - 1 := by
  intro l
  induction l with
  | nil => intro lb _ r hr; simp at hr
  | cons x xs ih =>
    intro lb hgood r hr
    obtain ⟨_, hx2, hx3, hrest⟩ := hgood
    rcases List.mem_cons.mp hr with h | h
    · subst h; exact ⟨hx2, hx3⟩
    · exact ih (x.2 + 2) hrest r h

/-- A tiling never starts after the index following its upper bound. -/
theorem tiles_lo_le : ∀ (units : List RUnit) (lo hi : ℕ),
    tiles units lo hi → lo ≤ hi + 1 := by
  intro units
  induction units with
  | nil => intro lo hi h; simp only [tiles] at h; omega
  | cons u rest _ =>
    intro lo hi h
    obtain ⟨_, h2, h3, _⟩ := h
    omega

/-- The emission walk over a nonempty `MergedGood` interval list succeeds
and produces units that tile from the cursor up to the last interval's
end. -/
theorem renderWalk_tiles (doc : Document) (getChunk : ℕ → Option Chunk)
    (hget : ∀ i, i ≤ doc.numberOfChunks - 1 → (getChunk i).isSome) :
    ∀ (ms : List (ℕ × ℕ)) (s e c lb : ℕ),
      c ≤ lb →
      MergedGood doc.numberOfChunks lb ((s, e) :: ms) →
      ∃ units, renderWalk doc getChunk c ((s, e) :: ms) = some units
        ∧ tiles units c (((s, e) :: ms).getLastD (0, 0)).2 := by
  intro ms
  induction ms with
  | nil =>
    intro s e c lb hclb hgood
    obtain ⟨hlb, hse, hen, -⟩ := hgood
    simp only at hlb hse hen
    obtain ⟨cS, hcS⟩ := Option.isSome_iff_exists.mp (hget s (by omega))
    obtain ⟨cE, hcE⟩ := Option.isSome_iff_exists.mp (hget e (by omega))
    rw [renderWalk, hcS, hcE]
    simp only [renderWalk, Option.map_some]
    refine ⟨_, rfl, ?_⟩
    by_cases hcs : c < s
    · rw [if_pos hcs]
      exact ⟨rfl, show c ≤ s - 1 by omega, show s - 1 ≤ e by omega,
        show s = s - 1 + 1 by omega, show s - 1 + 1 ≤ e by omega,
        show e ≤ e by omega, rfl⟩
    · rw [if_neg hcs]
      exact ⟨show s = c by omega, show c ≤ e by omega, show e ≤ e by omega, rfl⟩
  | cons m ms ih =>
    intro s e c lb hclb hgood
    obtain ⟨hlb, hse, hen, hrest⟩ := hgood
    simp only at hlb hse hen
    obtain ⟨cS, hcS⟩ := Option.isSome_iff_exists.mp (hget s (by omega))
    obtain ⟨cE, hcE⟩ := Option.isSome_iff_exists.mp (hget e (by omega))
    obtain ⟨units', hwalk', htiles'⟩ := ih m.1 m.2 (e + 1) (e + 2) (by omega) hrest
    have hm : ((m.1, m.2) : ℕ × ℕ) = m := rfl
    rw [hm] at hwalk' htiles'
    rw [renderWalk, hcS, hcE, hwalk']
    simp only [Option.map_some]
    refine ⟨_, rfl, ?_⟩
    have hehi : e ≤ ((m :: ms).getLastD (0, 0)).2 :=
      Nat.lt_succ_iff.mp (Nat.lt_of_lt_of_le (Nat.lt_succ_self e)
        (tiles_lo_le units' (e + 1) ((m :: ms).getLastD (0, 0)).2 htiles'))
    by_cases hcs : c < s
    · rw [if_pos hcs]
      exact ⟨rfl, show c ≤ s - 1 by omega,
        show s - 1 ≤ ((m :: ms).getLastD (0, 0)).2 by omega,
        show s = s - 1 + 1 by omega,
        show s - 1 + 1 ≤ e by omega,
        show e ≤ ((m :: ms).getLastD (0, 0)).2 by omega,
        htiles'⟩
    · rw [if_neg hcs]
      exact ⟨show s = c by omega, show c ≤ e by omega,
        show e ≤ ((m :: ms).getLastD (0, 0)).2 by omega, htiles'⟩

/-- Appending a trailing omitted unit extends a tiling. -/
theorem tiles_append_omitted :
    ∀ (units : List RUnit) (c le hi2 : ℕ),
      tiles units c le → le < hi2 →
      tiles (units ++ [RUnit.omitted (le + 1) hi2]) c hi2 := by
  intro units
  induction units with
  | nil =>
    intro c le hi2 h hlt
    simp only [tiles] at h
    exact ⟨show le + 1 = c by omega, show c ≤ hi2 by omega,
      show hi2 ≤ hi2 by omega, rfl⟩
  | cons u rest ih =>
    intro c le hi2 h hlt
    obtain ⟨h1, h2, h3, h4⟩ := h
    exact ⟨h1, h2, by omega, ih (u.hi + 1) le hi2 h4 hlt⟩

/-- No unit of a tiling contains an index below the tiling's lower bound. -/
theorem tiles_countP_zero :
    ∀ (units : List RUnit) (lo hi i : ℕ),
      tiles units lo hi → i < lo →
      units.countP (fun u => decide (u.lo ≤ i ∧ i ≤ u.hi)) = 0 := by
  intro units
  induction units with
  | nil => intro lo hi i _ _; rfl
  | cons u rest ih =>
    intro lo hi i h hi_lt
    obtain ⟨h1, h2, h3, h4⟩ := h
    rw [List.countP_cons]
    have hp : (decide (u.lo ≤ i ∧ i ≤ u.hi)) = false := by
      simp only [decide_eq_false_iff_not]
      intro hcontra
      omega
    rw [hp, ih (u.hi + 1) hi i h4 (by omega)]
    simp

/-- Every index inside a tiling's range is contained in exactly one unit. -/
theorem tiles_countP_one :
    ∀ (units : List RUnit) (lo hi i : ℕ),
      tiles units lo hi → lo ≤ i → i ≤ hi →
      units.countP (fun u => decide (u.lo ≤ i ∧ i ≤ u.hi)) = 1 := by
  intro units
  induction units with
  | nil =>
    intro lo hi i h h1 h2
    simp only [tiles] at h
    omega
  | cons u rest ih =>
    intro lo hi i h h1 h2
    obtain ⟨hu1, hu2, hu3, hu4⟩ := h
    rw [List.countP_cons]
    by_cases hin : i ≤ u.hi
    · have hp : (decide (u.lo ≤ i ∧ i ≤ u.hi)) = true := by
        simp only [decide_eq_true_eq]
        omega
      rw [hp, tiles_countP_zero rest (u.hi + 1) hi i hu4 (by omega)]
      simp
    · have hp : (decide (u.lo ≤ i ∧ i ≤ u.hi)) = false := by
        simp only [decide_eq_false_iff_not]
        intro hcontra
        omega
      rw [hp, ih (u.hi + 1) hi i hu4 (by omega) h2]
      simp

/-- Every unit of a tiling starts at or after the tiling's lower bound. -/
theorem tiles_lo_bound :
    ∀ (units : List RUnit) (lo hi : ℕ),
      tiles units lo hi → ∀ u ∈ units, lo ≤ u.lo := by
  intro units
  induction units with
  | nil => intro lo hi _ u hu; simp at hu
  | cons v rest ih =>
    intro lo hi h u hu
    obtain ⟨h1, h2, h3, h4⟩ := h
    rcases List.mem_cons.mp hu with h' | h'
    · subst h'; omega
    · have := ih (v.hi + 1) hi h4 u h'
      omega

/-- The units of a tiling are strictly ordered and non-overlapping. -/
theorem tiles_pairwise :
    ∀ (units : List RUnit) (lo hi : ℕ),
      tiles units lo hi →
      List.Pairwise (fun u v : RUnit => u.hi < v.lo) units := by
  intro units
  induction units with
  | nil => intro lo hi _; exact List.Pairwise.nil
  | cons u rest ih =>
    intro lo hi h
    obtain ⟨h1, h2, h3, h4⟩ := h
    refine List.pairwise_cons.mpr ⟨?_, ih (u.hi + 1) hi h4⟩
    intro v hv
    have := tiles_lo_bound rest (u.hi + 1) hi h4 v hv
    omega

/-- The last element (when present) is a member. -/
theorem mem_of_getLast?_eq_some {α : Type} :
    ∀ (l : List α) (a : α), l.getLast? = some a → a ∈ l := by
  intro l
  induction l with
  | nil => intro a h; simp at h
  | cons x xs ih =>
    intro a h
    cases xs with
    | nil => simp at h; simp [h]
    | cons y t =>
      rw [List.getLast?_cons_cons] at h
      exact List.mem_cons.mpr (Or.inr (ih a h))

/-- C2.  The render path never emits units for an existing document: for
every document, chunk-lookup function and request list, `documentRender1`
is `none`.  After merging the requests, and before any shown/omitted unit
is pushed, `documentRender` evaluates `document.createdAt.toISOString()`
inside the `<document id=... createdAt=...>` header; no `Document` of
this repository carries a `createdAt` field, so the call throws a
`TypeError` for every found document and the merge-and-cover output the
render contract describes is unreachable.  The walk that would produce
that output is analysed in isolation in `renderWalk_tiles` (it does tile
`[0, numberOfChunks)`), so the header evaluation is the sole obstruction. -/
theorem c2_render_header_always_throws (doc : Document)
    (getChunk : ℕ → Option Chunk) (reqs : List (ℕ × ℕ)) :
    documentRender1 doc getChunk reqs = none := rfl

/-- If `pat` occurs in `s` and replacing its first occurrence leaves `s`
unchanged, the replacement equals the pattern. -/
theorem replaceFirst_eq_self_imp :
    ∀ (s pat rep : List Char), pat <:+: s → replaceFirst s pat rep = s →
      rep = pat := by
  intro s
  induction s with
  | nil =>
    intro pat rep hocc heq
    have hpat : pat = [] := List.infix_nil.mp hocc
    subst hpat
    rw [replaceFirst, if_pos (List.nil_prefix)] at heq
    simpa using heq
  | cons c s' ih =>
    intro pat rep hocc heq
    by_cases hpre : pat <+: (c :: s')
    · rw [replaceFirst, if_pos hpre] at heq
      have hsplit := List.prefix_iff_eq_append.mp hpre
      have : rep ++ (c :: s').drop pat.length
          = pat ++ (c :: s').drop pat.length := by
        rw [heq]
        exact hsplit.symm
      exact List.append_cancel_right this
    · rw [replaceFirst, if_neg hpre] at heq
      have heq' : replaceFirst s' pat rep = s' := by
        injection heq
      obtain ⟨l, r, hlr⟩ := hocc
      cases l with
      | nil =>
        exact absurd ⟨r, by simpa using hlr⟩ hpre
      | cons x l' =>
        have hs' : pat <:+: s' := by
          refine ⟨l', r, ?_⟩
          have := hlr
          simp only [List.cons_append] at this
          injection this with _ h2
        exact ih pat rep hs' heq'

/-- After `deleteDocument st id`, `getDocument id` is absent (also when the
document never existed). -/
theorem getDocument_deleteDocument_self (st : StoreState) (id : ℕ) :
    getDocument (deleteDocument st id).2 id = none := by
  rw [deleteDocument]
  by_cases hany : st.documents.any (fun d => d.id = id)
  · rw [if_pos hany]
    simp only [getDocument]
    rw [List.find?_eq_none]
    intro d hd
    have := List.mem_filter.mp hd
    simpa using this.2
  · rw [if_neg hany]
    simp only [getDocument]
    rw [List.find?_eq_none]
    intro d hd
    simp only [List.any_eq_true, not_exists, not_and] at hany
    simpa using hany d hd

/-- C3 (amended).  For an existing document and resolvable chunk indices,
when `oldSpan` occurs in the text between the start chunk's `range.start`
and the end chunk's `range.end` AND `newSpan ≠ oldSpan` (for
`newSpan = oldSpan` the replacement leaves the span unchanged and the
method returns the NoOp failure instead, see the counterexample),
`editChunk` returns a new `Document` whose id differs from the original's,
whose content is the original content with the first occurrence of
`oldSpan` inside the targeted span replaced by `newSpan`, and afterwards
`getDocument` on the original id returns absent. -/
theorem c3_editChunk_success (embed : List Char → List ℚ) (st : StoreState)
    (docId iS iE : ℕ) (oldC newC : List Char) (doc : Document)
    (cS cE : IndexEntry)
    (hwf : ∀ d ∈ st.documents, d.id < st.nextId)
    (hdoc : getDocument st docId = some doc)
    (hcS : findChunkEntry st docId iS = some cS)
    (hcE : findChunkEntry st docId iE = some cE)
    (hocc : oldC <:+: jsSlice doc.content cS.chunk.range.start cE.chunk.range.stop)
    (hne : newC ≠ oldC) :
    ∃ newDoc st2, editChunk embed st docId iS iE oldC newC = .ok (newDoc, st2)
      ∧ newDoc.id ≠ docId
      ∧ newDoc.content = doc.content.take cS.chunk.range.start
          ++ replaceFirst
              (jsSlice doc.content cS.chunk.range.start cE.chunk.range.stop)
              oldC newC
          ++ doc.content.drop cE.chunk.range.stop
      ∧ getDocument st2 docId = none := by
  have hne' : replaceFirst
      (jsSlice doc.content cS.chunk.range.start cE.chunk.range.stop) oldC newC
      ≠ jsSlice doc.content cS.chunk.range.start cE.chunk.range.stop :=
    fun he => hne (replaceFirst_eq_self_imp _ _ _ hocc he)
  have hstep : editChunk embed st docId iS iE oldC newC =
      .ok ((addDocument embed st
            (doc.content.take cS.chunk.range.start
              ++ replaceFirst
                  (jsSlice doc.content cS.chunk.range.start cE.chunk.range.stop)
                  oldC newC
              ++ doc.content.drop cE.chunk.range.stop) doc.metadata).1,
          (deleteDocument (addDocument embed st
            (doc.content.take cS.chunk.range.start
              ++ replaceFirst
                  (jsSlice doc.content cS.chunk.range.start cE.chunk.range.stop)
                  oldC newC
              ++ doc.content.drop cE.chunk.range.stop) doc.metadata).2
            docId).2) := by
    unfold editChunk
    simp only [hdoc, hcS, hcE]
    rw [if_neg hne']
  refine ⟨_, _, hstep, ?_, rfl, getDocument_deleteDocument_self _ _⟩
  have hmem := List.mem_of_find?_eq_some hdoc
  have hid : doc.id = docId := by simpa using List.find?_some hdoc
  have hlt := hwf doc hmem
  show st.nextId ≠ docId
  omega

/-- C3 counterexample: with `oldSpan` present in the targeted span but
`newSpan = oldSpan`, the replacement leaves the span identical and
`editChunk` returns the NoOp failure string instead of a new `Document`
(the claim as stated promises a new Document whenever `oldSpan` occurs). -/
theorem c3_counterexample_newspan_eq_oldspan :
    (['a'] <:+: jsSlice ['a', 'b'] 0 2)
    ∧ editChunk (fun _ => []) (addDocument (fun _ => []) emptyStore ['a', 'b'] 0).2
        0 0 0 ['a'] ['a']
      = .error "Content is the same, no changes made" :=
  ⟨by decide, rfl⟩

/-- C3 witness: the amended theorem applied to the store holding the single
two-character document `"ab"` (id 0), replacing `"a"` by `"x"` in chunk 0. -/
theorem c3_editChunk_success_witness :
    ∃ newDoc st2,
      editChunk (fun _ => []) (addDocument (fun _ => []) emptyStore ['a', 'b'] 0).2
        0 0 0 ['a'] ['x'] = .ok (newDoc, st2)
      ∧ newDoc.id ≠ 0
      ∧ newDoc.content = (['a', 'b'] : List Char).take 0
          ++ replaceFirst (jsSlice ['a', 'b'] 0 2) ['a'] ['x']
          ++ (['a', 'b'] : List Char).drop 2
      ∧ getDocument st2 0 = none :=
  c3_editChunk_success (fun _ => [])
    (addDocument (fun _ => []) emptyStore ['a', 'b'] 0).2 0 0 0 ['a'] ['x']
    ⟨0, ['a', 'b'], 1, 0⟩ ⟨⟨['a', 'b'], 0, 0, ⟨0, 2⟩⟩, []⟩
    ⟨⟨['a', 'b'], 0, 0, ⟨0, 2⟩⟩, []⟩
    (by decide) (by decide) (by decide) (by decide) (by decide) (by decide)

/-- C4.  For an existing document and resolvable chunk indices, when
replacing the first occurrence of `oldSpan` by `newSpan` leaves the
targeted span identical (e.g. `oldSpan` not present), `editChunk` returns
the NoOp failure string.  In this state-passing model a failure returns no
new state, so the store is unchanged: the original document is still
retrievable and its chunk entries are still indexed (restated from the
hypotheses in the conclusion). -/
theorem c4_editChunk_noop (embed : List Char → List ℚ) (st : StoreState)
    (docId iS iE : ℕ) (oldC newC : List Char) (doc : Document)
    (cS cE : IndexEntry)
    (hdoc : getDocument st docId = some doc)
    (hcS : findChunkEntry st docId iS = some cS)
    (hcE : findChunkEntry st docId iE = some cE)
    (hsame : replaceFirst
        (jsSlice doc.content cS.chunk.range.start cE.chunk.range.stop)
        oldC newC
      = jsSlice doc.content cS.chunk.range.start cE.chunk.range.stop) :
    editChunk embed st docId iS iE oldC newC
      = .error "Content is the same, no changes made"
    ∧ getDocument st docId = some doc
    ∧ findChunkEntry st docId iS = some cS
    ∧ findChunkEntry st docId iE = some cE := by
  refine ⟨?_, hdoc, hcS, hcE⟩
  unfold editChunk
  simp only [hdoc, hcS, hcE]
  rw [if_pos hsame]

/-- C4 witness: the theorem applied to the store holding the single
document `"ab"`, with `oldSpan = "z"` absent from the span. -/
theorem c4_editChunk_noop_witness :
    editChunk (fun _ => []) (addDocument (fun _ => []) emptyStore ['a', 'b'] 0).2
      0 0 0 ['z'] ['x'] = .error "Content is the same, no changes made" :=
  (c4_editChunk_noop (fun _ => [])
    (addDocument (fun _ => []) emptyStore ['a', 'b'] 0).2 0 0 0 ['z'] ['x']
    ⟨0, ['a', 'b'], 1, 0⟩ ⟨⟨['a', 'b'], 0, 0, ⟨0, 2⟩⟩, []⟩
    ⟨⟨['a', 'b'], 0, 0, ⟨0, 2⟩⟩, []⟩
    (by decide) (by decide) (by decide) (by decide)).1

/-- A stand-in model of `Math.sqrt`, exact on the inputs `0` and `1` that
the concrete instances below exercise (no claim depends on other values). -/
def sqrtModel : ℚ → ℚ := fun x => if x = 0 then 0 else if x = 1 then 1 else 2

/-- C6 counterexample: the two backends are NOT identical.  On vectors of
mismatched length the `EmbeddingService` similarity throws
(`DimensionMismatch`) while the SQLite one returns a plain number; on
zero-magnitude vectors the `EmbeddingService` returns `0` while the SQLite
one divides by zero magnitude and produces no finite number. -/
theorem c6_counterexample_sqlite_backend_differs :
    cosineSimilarity sqrtModel [1] [1, 0]
        = .error "Vectors must have the same length"
    ∧ sqliteCosineSimilarity sqrtModel [1] [1, 0] = some 1
    ∧ cosineSimilarity sqrtModel [0] [0] = .ok 0
    ∧ sqliteCosineSimilarity sqrtModel [0] [0] = none := by
  refine ⟨?_, ?_, ?_, ?_⟩ <;>
    norm_num [cosineSimilarity, sqliteCosineSimilarity, sqliteDot, jsDiv,
      dotList, sumSq, sqrtModel]

/-- C6 (amended).  `EmbeddingService.cosineSimilarity` (used by the
in-memory backend's search) implements the specified similarity: it fails
with the dimension-mismatch error on vectors of unequal length, returns
`0` when either vector has zero magnitude, and otherwise returns
`dot(a,b) / (√|a|² * √|b|²)`.  `SQLiteDocumentStore.cosineSimilarity`
checks neither condition and agrees with it only on equal-length vectors
of nonzero magnitude, so the two backends are not identical (see the
counterexample). -/
theorem c6_cosine_similarity_backends (sqrtQ : ℚ → ℚ) (a b : List ℚ) :
    (a.length ≠ b.length →
      cosineSimilarity sqrtQ a b = .error "Vectors must have the same length")
    ∧ (a.length = b.length → (sumSq a = 0 ∨ sumSq b = 0) →
        cosineSimilarity sqrtQ a b = .ok 0)
    ∧ (a.length = b.length → ¬(sumSq a = 0 ∨ sumSq b = 0) →
        sqrtQ (sumSq a) * sqrtQ (sumSq b) ≠ 0 →
        cosineSimilarity sqrtQ a b
            = .ok (dotList a b / (sqrtQ (sumSq a) * sqrtQ (sumSq b)))
          ∧ sqliteCosineSimilarity sqrtQ a b
            = some (dotList a b / (sqrtQ (sumSq a) * sqrtQ (sumSq b)))) := by
  refine ⟨?_, ?_, ?_⟩
  · intro hne
    unfold cosineSimilarity
    rw [if_neg hne]
  · intro heq hz
    unfold cosineSimilarity
    rw [if_pos heq, if_pos hz]
  · intro heq hz hden
    constructor
    · unfold cosineSimilarity
      rw [if_pos heq, if_neg hz]
    · unfold sqliteCosineSimilarity sqliteDot jsDiv
      rw [if_pos (le_of_eq heq)]
      simp only
      rw [if_neg hden]

/-- C6 witness: on the equal-length nonzero vectors `[1]`, `[1]` the two
backends produce the same value, the specified cosine similarity. -/
theorem c6_cosine_similarity_backends_witness :
    cosineSimilarity sqrtModel [1] [1]
        = .ok (dotList [1] [1] / (sqrtModel (sumSq [1]) * sqrtModel (sumSq [1])))
    ∧ sqliteCosineSimilarity sqrtModel [1] [1]
        = some (dotList [1] [1] / (sqrtModel (sumSq [1]) * sqrtModel (sumSq [1]))) :=
  (c6_cosine_similarity_backends sqrtModel [1] [1]).2.2 rfl
    (by norm_num [sumSq]) (by norm_num [sumSq, sqrtModel])

/-- For equal-length vectors the `EmbeddingService` similarity never
throws. -/
theorem cosineSimilarity_ok (sqrtQ : ℚ → ℚ) (a b : List ℚ)
    (h : a.length = b.length) :
    ∃ s, cosineSimilarity sqrtQ a b = .ok s := by
  unfold cosineSimilarity
  rw [if_pos h]
  by_cases hz : sumSq a = 0 ∨ sumSq b = 0
  · rw [if_pos hz]; exact ⟨0, rfl⟩
  · rw [if_neg hz]; exact ⟨_, rfl⟩

/-- When every indexed embedding has the query embedding's length, scoring
succeeds and scores every indexed entry. -/
theorem scoreAll_ok (sqrtQ : ℚ → ℚ) (qe : List ℚ) :
    ∀ entries : List IndexEntry,
      (∀ en ∈ entries, en.embedding.length = qe.length) →
      ∃ sims, scoreAll sqrtQ qe entries = .ok sims
        ∧ sims.length = entries.length := by
  intro entries
  induction entries with
  | nil => intro _; exact ⟨[], rfl, rfl⟩
  | cons en ens ih =>
    intro hlen
    obtain ⟨s, hs⟩ := cosineSimilarity_ok sqrtQ qe en.embedding
      (hlen en (by simp)).symm
    obtain ⟨sims, hsims, hl⟩ := ih (fun x hx => hlen x (by simp [hx]))
    refine ⟨⟨en.chunk, s⟩ :: sims, ?_, by simp [hl]⟩
    simp only [scoreAll, hs, hsims, Except.map]

/-- C5.  Provided the embedding provider returns vectors of the fixed
deployment length (so each indexed embedding matches the query embedding's
length), `search(query, topK)` scores every indexed chunk, returns at most
`topK` results sorted by non-increasing similarity, and the executor's
pagination (`search(query, topK + skip)` then `slice(skip)`) coincides
with the specified 3-argument contract `specSearchSkip` (take the top
`topK + skip` by similarity, drop the first `skip`), which also equals
the top `topK` of the results after dropping `skip`. -/
theorem c5_search_topk_sorted_paginated (sqrtQ : ℚ → ℚ)
    (embed : List Char → List ℚ) (st : StoreState) (query : List Char)
    (topK skip : ℕ)
    (hlen : ∀ en ∈ st.chunks, en.embedding.length = (embed query).length) :
    ∃ sims, scoreAll sqrtQ (embed query) st.chunks = .ok sims
      ∧ sims.length = st.chunks.length
      ∧ search sqrtQ embed st query topK = .ok ((sortBySimDesc sims).take topK)
      ∧ ((sortBySimDesc sims).take topK).length ≤ topK
      ∧ List.Sorted (fun x y : SearchResult => y.similarity ≤ x.similarity)
          ((sortBySimDesc sims).take topK)
      ∧ searchPaginated sqrtQ embed st query topK skip
          = .ok (((sortBySimDesc sims).take (topK + skip)).drop skip)
      ∧ specSearchSkip sqrtQ embed st query topK skip
          = .ok (((sortBySimDesc sims).take (topK + skip)).drop skip)
      ∧ ((sortBySimDesc sims).take (topK + skip)).drop skip
          = ((sortBySimDesc sims).drop skip).take topK := by
  haveI : IsTotal SearchResult (fun x y : SearchResult => y.similarity ≤ x.similarity) :=
    ⟨fun x y => le_total y.similarity x.similarity⟩
  haveI : IsTrans SearchResult (fun x y : SearchResult => y.similarity ≤ x.similarity) :=
    ⟨fun x y z h1 h2 => le_trans h2 h1⟩
  obtain ⟨sims, hsims, hl⟩ := scoreAll_ok sqrtQ (embed query) st.chunks hlen
  have hsorted := List.sorted_insertionSort
    (fun x y : SearchResult => y.similarity ≤ x.similarity) sims
  refine ⟨sims, hsims, hl, ?_, ?_, ?_, ?_, ?_, ?_⟩
  · simp only [search, hsims, Except.map]
  · simp
  · exact List.Pairwise.sublist (List.take_sublist _ _) hsorted
  · simp only [searchPaginated, search, hsims, Except.map]
  · simp only [specSearchSkip, hsims, Except.map]
  · rw [List.drop_take]
    congr 1
    omega

/-- C5 witness: the theorem applied to the empty store (no indexed chunks),
where the length hypothesis is vacuous. -/
theorem c5_search_topk_sorted_paginated_witness :
    ∃ l, search sqrtModel (fun _ => []) emptyStore ['q'] 3 = .ok l
      ∧ l.length ≤ 3 := by
  obtain ⟨sims, -, -, hse, hlen3, -, -, -, -⟩ :=
    c5_search_topk_sorted_paginated sqrtModel (fun _ => []) emptyStore ['q']
      3 0 (by simp [emptyStore])
  exact ⟨_, hse, hlen3⟩
